import Mathlib

/-!
Verification of the SalesPulse Streamlit dashboard (`src/app.py`).

The pipeline under verification is the filter-and-aggregate core:
`df_filtered` (lines 111-118) applies conjunctive equality/date-range
predicates to the loaded table; the aggregation layer computes grouped
sums, distinct counts, argmax metrics, a monthly trend and top-10
rankings over the filtered view (lines 122-129, 147, 201-202, 266,
301, 332, 386).

Pandas semantics embedded here:
* a DataFrame is a `List Record` (row order is the list order);
* boolean-mask selection is `List.filter` (keeps row order);
* `groupby(key)['sales'].sum()` (default `sort=True`) is: the distinct
  keys in ascending order, each paired with the sum of `sales` over the
  rows having that key;
* `Series.idxmax` returns the index label of the first occurrence of
  the maximal value;
* the top-10 rankings' `sort_values(ascending=False)` is NOT modelled:
  its default quicksort gives no documented tie-order guarantee, so no
  faithful embedding of its tie behavior exists;
* dates are (year, month, day) triples ordered lexicographically, and
  `(ship_date - order_date).dt.days` is the difference of civil-calendar
  day numbers;
* monetary values are rationals; the mean of an empty series is NaN,
  modelled as `none`.
-/

namespace SalesPulse

/-- A calendar date as parsed by `pd.to_datetime` (line 73-74): a
(year, month, day) triple. -/
structure Date where
  year : Nat
  month : Nat
  day : Nat
deriving DecidableEq, Repr

/-- The lexicographic key of a date; datetime comparison is
lexicographic on (year, month, day). -/
def Date.key (d : Date) : Nat ×ₗ (Nat ×ₗ Nat) :=
  toLex (d.year, toLex (d.month, d.day))

/-- Datetime comparison `a <= b`, as used by the boolean masks on
`order_date` in line 118. -/
def Date.le (a b : Date) : Prop := a.key ≤ b.key

instance : DecidableRel Date.le :=
  fun a b => inferInstanceAs (Decidable (a.key ≤ b.key))

/-- `order_date.dt.to_period('M')` (line 201): the (year, month) pair,
ordered lexicographically, i.e. chronologically. -/
def Date.monthKey (d : Date) : Nat ×ₗ Nat := toLex (d.year, d.month)

/-- Civil-calendar day number (days since 1970-01-01, Hinnant's
`days_from_civil`); models the subtraction of two pandas datetimes in
`(df_filtered['ship_date'] - df_filtered['order_date']).dt.days`
(line 386). -/
def Date.toDays (dt : Date) : Int :=
  let y : Int := (dt.year : Int) - (if dt.month ≤ 2 then 1 else 0)
  let era : Int := Int.fdiv y 400
  let yoe : Int := y - era * 400
  let mp : Int := ((dt.month + 9) % 12 : Nat)
  let doy : Int := (153 * mp + 2) / 5 + (dt.day : Int) - 1
  let doe : Int := yoe * 365 + yoe / 4 - yoe / 100 + doy
  era * 146097 + doe - 719468

/-- One row of `data_query/superstore.csv` after the loader's date
parsing (lines 70-75): the columns the dashboard reads. -/
structure Record where
  order_id : String
  order_date : Date
  ship_date : Date
  region : String
  state : String
  city : String
  category : String
  sub_category : String
  product_name : String
  sales : ℚ
  quantity : Nat
  profit : ℚ
  ship_mode : String
deriving DecidableEq, Repr

/-- The user-chosen filter parameters (widgets, lines 96-108): the three
categorical fields with the "All" sentinel and the inclusive date
bounds. -/
structure FilterSpec where
  region : String
  state : String
  city : String
  start_date : Date
  end_date : Date
deriving DecidableEq, Repr

/-- `df_filtered` (lines 111-118): start from a copy of the table, apply
an equality mask for each categorical field whose spec value is not
"All", then keep the rows with
`order_date >= start_date AND order_date <= end_date`. -/
def filterTable (t : List Record) (s : FilterSpec) : List Record :=
  let d0 := t
  let d1 := if s.region ≠ "All" then d0.filter (fun r => r.region == s.region) else d0
  let d2 := if s.state ≠ "All" then d1.filter (fun r => r.state == s.state) else d1
  let d3 := if s.city ≠ "All" then d2.filter (fun r => r.city == s.city) else d2
  d3.filter (fun r =>
    decide (Date.le s.start_date r.order_date) && decide (Date.le r.order_date s.end_date))

/-- The spec's description of the active predicates: equality for each
categorical field not set to "All", conjoined with the inclusive date
range. -/
def matchesSpec (s : FilterSpec) (r : Record) : Prop :=
  (s.region ≠ "All" → r.region = s.region) ∧
  (s.state ≠ "All" → r.state = s.state) ∧
  (s.city ≠ "All" → r.city = s.city) ∧
  Date.le s.start_date r.order_date ∧ Date.le r.order_date s.end_date

instance (s : FilterSpec) (r : Record) : Decidable (matchesSpec s r) := by
  unfold matchesSpec; infer_instance

/-- `df['order_date'].min()` (line 104) on a nonempty table; the default
value for the empty table is never used by the app (the CSV is
nonempty). -/
def minOrderDate : List Record → Date
  | [] => ⟨0, 0, 0⟩
  | r :: rest =>
    rest.foldl (fun a x => if Date.le x.order_date a then x.order_date else a) r.order_date

/-- `df['order_date'].max()` (line 105) on a nonempty table. -/
def maxOrderDate : List Record → Date
  | [] => ⟨0, 0, 0⟩
  | r :: rest =>
    rest.foldl (fun a x => if Date.le a x.order_date then x.order_date else a) r.order_date

/-- The all-pass filter parameters: every categorical field "All" and
the date range the widgets default to, `[min, max]` of the table's
order dates (lines 104-108). -/
def allSpec (t : List Record) : FilterSpec :=
  ⟨"All", "All", "All", minOrderDate t, maxOrderDate t⟩

/-- `df_filtered['sales'].sum()` (line 123). -/
def totalSales (view : List Record) : ℚ := (view.map Record.sales).sum

/-- `df_filtered['quantity'].sum()` (line 124). -/
def totalQuantity (view : List Record) : Nat := (view.map Record.quantity).sum

/-- `df_filtered['profit'].sum()` (line 125). -/
def totalProfit (view : List Record) : ℚ := (view.map Record.profit).sum

/-- `df_filtered['order_id'].nunique()` (line 128): the number of
distinct order ids. -/
def orderCount (view : List Record) : Nat :=
  ((view.map Record.order_id).dedup).length

/-- The distinct group keys in ascending order, as produced by
`groupby(key, sort=True)`. -/
def groupKeys {κ : Type} [LinearOrder κ] (key : Record → κ) (view : List Record) : List κ :=
  List.insertionSort (· ≤ ·) ((view.map key).dedup)

/-- `view.groupby(key)['sales'].sum()`: each distinct key, in ascending
key order, paired with the sum of `sales` over the rows carrying that
key. -/
def groupSum {κ : Type} [LinearOrder κ] (key : Record → κ) (view : List Record) :
    List (κ × ℚ) :=
  (groupKeys key view).map (fun k => (k, totalSales (view.filter (fun r => decide (key r = k)))))

/-- The scan behind `Series.idxmax`: keep the current best and replace
it only on a strictly larger value, so the first occurrence of the
maximum wins. -/
def idxmaxAux {κ : Type} (best : κ × ℚ) : List (κ × ℚ) → κ × ℚ
  | [] => best
  | p :: rest => if best.2 < p.2 then idxmaxAux p rest else idxmaxAux best rest

/-- `Series.idxmax`: the index label of the first occurrence of the
maximal value, `none` on the empty series. -/
def idxmax {κ : Type} : List (κ × ℚ) → Option κ
  | [] => none
  | p :: rest => some (idxmaxAux p rest).1

/-- `view.groupby(key)['sales'].sum().idxmax() if not view.empty else "-"`
(the shape of lines 126 and 127). The `.getD "-"` branch is unreachable
for a nonempty view, where the grouped series is nonempty. -/
def topBy (key : Record → String) (view : List Record) : String :=
  if view.isEmpty then "-" else (idxmax (groupSum key view)).getD "-"

/-- "Top Category" metric (line 126). -/
def topCategory (view : List Record) : String := topBy Record.category view

/-- "Top City" metric (line 127). -/
def topCity (view : List Record) : String := topBy Record.city view

/-- `df_filtered.groupby('category')['sales'].sum()` (line 147); the
`reset_index()` only reshapes for plotting. -/
def cat_sales (view : List Record) : List (String × ℚ) :=
  groupSum Record.category view

/-- Sales trend (lines 201-202):
`df_filtered.groupby(df_filtered['order_date'].dt.to_period('M'))['sales'].sum()` —
one (year-month, summed sales) point per month present in the view, in
ascending (chronological) key order. -/
def trend (view : List Record) : List ((Nat ×ₗ Nat) × ℚ) :=
  groupSum (fun r => r.order_date.monthKey) view

/-- `(df_filtered['ship_date'] - df_filtered['order_date']).dt.days.mean()`
(line 386): the mean shipping duration in days, `none` for the empty
view (pandas yields NaN there, and line 387 renders it as "-"). -/
def avg_ship (view : List Record) : Option ℚ :=
  if view.isEmpty then none
  else some ((view.map (fun r => ((r.ship_date.toDays - r.order_date.toDays : Int) : ℚ))).sum
    / (view.length : ℚ))

/-- The six metric cards (lines 122-129). -/
structure Metrics where
  total_sales : ℚ
  qty_sold : Nat
  total_profit : ℚ
  top_category : String
  top_city : String
  orders : Nat
deriving DecidableEq, Repr

/-- The `metrics` list of line 122-129, as values (the f-string
formatting is presentation only). -/
def computeMetrics (view : List Record) : Metrics :=
  ⟨totalSales view, totalQuantity view, totalProfit view,
   topCategory view, topCity view, orderCount view⟩

/-- The in-memory application state: the table returned by `load_data()`
and bound to `df` (line 78). -/
structure AppState where
  df : List Record
deriving DecidableEq

/-- One interaction pass (filter then aggregate): line 111 copies the
table (`df.copy()`), every later step reads `df_filtered` or reads `df`
without in-place mutation, so the state after the pass carries the same
table. -/
def interactionPass (st : AppState) (s : FilterSpec) : AppState × Metrics :=
  let dfFiltered := filterTable st.df s
  ({ df := st.df }, computeMetrics dfFiltered)

/-- A concrete sample row, used to instantiate proved theorems. -/
def sampleRecord : Record :=
  { order_id := "CA-1", order_date := ⟨2023, 1, 5⟩, ship_date := ⟨2023, 1, 7⟩,
    region := "East", state := "New York", city := "New York City",
    category := "Technology", sub_category := "Phones", product_name := "Phone X",
    sales := 100, quantity := 1, profit := 10, ship_mode := "Standard Class" }

/-- A second sample row in another region and month. -/
def sampleRecord2 : Record :=
  { order_id := "CA-2", order_date := ⟨2023, 2, 10⟩, ship_date := ⟨2023, 2, 14⟩,
    region := "West", state := "California", city := "Los Angeles",
    category := "Furniture", sub_category := "Chairs", product_name := "Chair Y",
    sales := 50, quantity := 2, profit := 5, ship_mode := "Second Class" }

end SalesPulse

namespace SalesPulse

lemma dateLe_refl (a : Date) : Date.le a a := le_rfl

lemma dateLe_trans {a b c : Date} (h1 : Date.le a b) (h2 : Date.le b c) : Date.le a c :=
  Preorder.le_trans _ _ _ h1 h2

lemma dateLe_total (a b : Date) : Date.le a b ∨ Date.le b a :=
  le_total a.key b.key

lemma mem_ite_filter {c : Prop} [Decidable c] {p : Record → Bool} {l : List Record}
    {r : Record} : (r ∈ if c then l.filter p else l) ↔ r ∈ l ∧ (c → p r) := by
  split
  · simp only [List.mem_filter]
    tauto
  · tauto

lemma ite_filter_sublist {c : Prop} [Decidable c] (p : Record → Bool) (l : List Record) :
    (if c then l.filter p else l).Sublist l := by
  split
  · exact List.filter_sublist l
  · exact List.Sublist.refl l

lemma filterTable_sublist (t : List Record) (s : FilterSpec) :
    (filterTable t s).Sublist t := by
  refine ((List.filter_sublist _).trans (ite_filter_sublist _ _)).trans
    ((ite_filter_sublist _ _).trans (ite_filter_sublist _ _))

lemma mem_filterTable {t : List Record} {s : FilterSpec} {r : Record} :
    r ∈ filterTable t s ↔ r ∈ t ∧ matchesSpec s r := by
  simp only [filterTable, matchesSpec, List.mem_filter, mem_ite_filter,
    Bool.and_eq_true, decide_eq_true_eq, beq_iff_eq]
  tauto

end SalesPulse

namespace SalesPulse

lemma foldl_min_spec (l : List Record) (a : Date) :
    Date.le (l.foldl (fun a x => if Date.le x.order_date a then x.order_date else a) a) a ∧
    ∀ r ∈ l,
      Date.le (l.foldl (fun a x => if Date.le x.order_date a then x.order_date else a) a)
        r.order_date := by
  induction l generalizing a with
  | nil => exact ⟨dateLe_refl a, by simp⟩
  | cons x l ih =>
    have step1 : Date.le (if Date.le x.order_date a then x.order_date else a) a := by
      split
      · assumption
      · exact dateLe_refl a
    have step2 : Date.le (if Date.le x.order_date a then x.order_date else a) x.order_date := by
      split
      · exact dateLe_refl _
      · rcases dateLe_total x.order_date a with h | h
        · exact absurd h (by assumption)
        · exact h
    refine ⟨dateLe_trans (ih _).1 step1, ?_⟩
    intro r hr
    rcases List.mem_cons.mp hr with rfl | hr
    · exact dateLe_trans (ih _).1 step2
    · exact (ih _).2 r hr

lemma foldl_max_spec (l : List Record) (a : Date) :
    Date.le a (l.foldl (fun a x => if Date.le a x.order_date then x.order_date else a) a) ∧
    ∀ r ∈ l,
      Date.le r.order_date
        (l.foldl (fun a x => if Date.le a x.order_date then x.order_date else a) a) := by
  induction l generalizing a with
  | nil => exact ⟨dateLe_refl a, by simp⟩
  | cons x l ih =>
    have step1 : Date.le a (if Date.le a x.order_date then x.order_date else a) := by
      split
      · assumption
      · exact dateLe_refl a
    have step2 : Date.le x.order_date (if Date.le a x.order_date then x.order_date else a) := by
      split
      · exact dateLe_refl _
      · rcases dateLe_total a x.order_date with h | h
        · exact absurd h (by assumption)
        · exact h
    refine ⟨dateLe_trans step1 (ih _).1, ?_⟩
    intro r hr
    rcases List.mem_cons.mp hr with rfl | hr
    · exact dateLe_trans step2 (ih _).1
    · exact (ih _).2 r hr

lemma minOrderDate_le {t : List Record} {r : Record} (h : r ∈ t) :
    Date.le (minOrderDate t) r.order_date := by
  cases t with
  | nil => cases h
  | cons x l =>
    rcases List.mem_cons.mp h with rfl | hr
    · exact (foldl_min_spec l r.order_date).1
    · exact (foldl_min_spec l x.order_date).2 r hr

lemma le_maxOrderDate {t : List Record} {r : Record} (h : r ∈ t) :
    Date.le r.order_date (maxOrderDate t) := by
  cases t with
  | nil => cases h
  | cons x l =>
    rcases List.mem_cons.mp h with rfl | hr
    · exact (foldl_max_spec l r.order_date).1
    · exact (foldl_max_spec l x.order_date).2 r hr

end SalesPulse

namespace SalesPulse

/-- C1: For every Table and every FilterSpec, the filter operation returns
a subsequence of the Table (subset by row identity, preserving original
row order) containing exactly the rows that satisfy every active
predicate: region equality when `spec.region` is not "All", state
equality when `spec.state` is not "All", city equality when `spec.city`
is not "All", and the inclusive date-range predicate
`start_date <= order_date <= end_date`; the predicates are conjoined. -/
theorem filterTable_subsequence_exact (t : List Record) (s : FilterSpec) :
    (filterTable t s).Sublist t ∧
    ∀ r : Record, r ∈ filterTable t s ↔ r ∈ t ∧ matchesSpec s r :=
  ⟨filterTable_sublist t s, fun _ => mem_filterTable⟩

/-- C2: On the empty FilteredView every aggregation returns its documented
degraded value (all aggregations here are total functions, so none can
raise): total sales, quantity and profit are zero, the distinct-order
count is zero, top category and top city are the sentinel "-", the time
trend is the empty sequence, and the average-shipping-days metric is
`none` (NaN, rendered as "-" by line 387). -/
theorem empty_view_degrades :
    totalSales [] = 0 ∧ totalQuantity [] = 0 ∧ totalProfit [] = 0 ∧ orderCount [] = 0 ∧
    topCategory [] = "-" ∧ topCity [] = "-" ∧ trend [] = [] ∧ avg_ship [] = none := by
  refine ⟨rfl, rfl, rfl, rfl, rfl, rfl, ?_, rfl⟩
  simp [trend, groupSum, groupKeys]

/-- C4: Filtering any Table with the all-pass FilterSpec — region, state
and city all "All" and the date range `[min order_date, max order_date]`
of the Table — returns the full Table, identical in row content and
order. -/
theorem filterTable_allSpec_eq (t : List Record) :
    filterTable t (allSpec t) = t := by
  unfold filterTable allSpec
  simp only [ne_eq, not_true_eq_false, if_false, ite_false]
  rw [List.filter_eq_self]
  intro r hr
  simp only [Bool.and_eq_true, decide_eq_true_eq]
  exact ⟨minOrderDate_le hr, le_maxOrderDate hr⟩

/-- C8: When the FilterSpec has `start_date > end_date`, the filter
returns the empty view: the date conjunction
`start_date <= order_date <= end_date` is unsatisfiable. -/
theorem filterTable_reversed_range_empty (t : List Record) (s : FilterSpec)
    (h : ¬ Date.le s.start_date s.end_date) : filterTable t s = [] := by
  rw [List.eq_nil_iff_forall_not_mem]
  intro r hr
  obtain ⟨-, -, -, -, h1, h2⟩ := mem_filterTable.mp hr
  exact h (dateLe_trans h1 h2)

/-- Witness for C8 at a concrete reversed range on a two-row table. -/
theorem filterTable_reversed_range_empty_witness :
    (¬ Date.le ⟨2023, 5, 1⟩ ⟨2023, 4, 30⟩) ∧
    filterTable [sampleRecord, sampleRecord2]
      ⟨"All", "All", "All", ⟨2023, 5, 1⟩, ⟨2023, 4, 30⟩⟩ = [] :=
  ⟨by decide, filterTable_reversed_range_empty _ _ (by decide)⟩

end SalesPulse

namespace SalesPulse

lemma groupKeys_nodup {κ : Type} [LinearOrder κ] (key : Record → κ) (view : List Record) :
    (groupKeys key view).Nodup :=
  (List.perm_insertionSort _ _).nodup_iff.mpr (List.nodup_dedup _)

lemma mem_groupKeys {κ : Type} [LinearOrder κ] {key : Record → κ} {view : List Record}
    {k : κ} : k ∈ groupKeys key view ↔ ∃ r ∈ view, key r = k := by
  unfold groupKeys
  simp [List.mem_insertionSort, List.mem_dedup]

lemma groupKeys_pairwise_lt {κ : Type} [LinearOrder κ] (key : Record → κ)
    (view : List Record) : (groupKeys key view).Pairwise (· < ·) := by
  have hs : (groupKeys key view).Pairwise (· ≤ ·) := List.sorted_insertionSort _ _
  have hn : (groupKeys key view).Pairwise (· ≠ ·) := groupKeys_nodup key view
  exact (hs.and hn).imp (fun h => lt_of_le_of_ne h.1 h.2)

lemma groupSum_fst_pairwise_lt {κ : Type} [LinearOrder κ] (key : Record → κ)
    (view : List Record) : (groupSum key view).Pairwise (fun p q => p.1 < q.1) := by
  unfold groupSum
  rw [List.pairwise_map]
  exact groupKeys_pairwise_lt key view

lemma mem_groupSum_iff {κ : Type} [LinearOrder κ] {key : Record → κ} {view : List Record}
    {p : κ × ℚ} :
    p ∈ groupSum key view ↔
      (∃ r ∈ view, key r = p.1) ∧
      p.2 = totalSales (view.filter (fun r => decide (key r = p.1))) := by
  obtain ⟨k0, v0⟩ := p
  unfold groupSum
  rw [List.mem_map]
  constructor
  · rintro ⟨k, hk, hek⟩
    injection hek with h1 h2
    subst h1
    exact ⟨mem_groupKeys.mp hk, h2.symm⟩
  · rintro ⟨hr, hv⟩
    exact ⟨k0, mem_groupKeys.mpr hr, Prod.ext rfl hv.symm⟩

lemma groupSum_length {κ : Type} [LinearOrder κ] (key : Record → κ) (view : List Record) :
    (groupSum key view).length = ((view.map key).dedup).length := by
  unfold groupSum groupKeys
  rw [List.length_map, List.length_insertionSort]

lemma groupSum_ne_nil {κ : Type} [LinearOrder κ] (key : Record → κ) {view : List Record}
    (h : view ≠ []) : groupSum key view ≠ [] := by
  obtain ⟨r, rest, rfl⟩ := List.exists_cons_of_ne_nil h
  have hk : key r ∈ groupKeys key (r :: rest) :=
    mem_groupKeys.mpr ⟨r, List.mem_cons_self r rest, rfl⟩
  intro hc
  unfold groupSum at hc
  rw [List.map_eq_nil_iff] at hc
  rw [hc] at hk
  cases hk

end SalesPulse

namespace SalesPulse

lemma idxmaxAux_mem {κ : Type} (best : κ × ℚ) (l : List (κ × ℚ)) :
    idxmaxAux best l ∈ best :: l := by
  induction l generalizing best with
  | nil => simp [idxmaxAux]
  | cons p rest ih =>
    rw [idxmaxAux]
    split
    · have h := ih p
      simp only [List.mem_cons] at h ⊢
      tauto
    · have h := ih best
      simp only [List.mem_cons] at h ⊢
      tauto

lemma idxmaxAux_le {κ : Type} (best : κ × ℚ) (l : List (κ × ℚ)) :
    ∀ q ∈ best :: l, q.2 ≤ (idxmaxAux best l).2 := by
  induction l generalizing best with
  | nil =>
    intro q hq
    rcases List.mem_cons.mp hq with rfl | h
    · exact le_rfl
    · cases h
  | cons p rest ih =>
    intro q hq
    rw [idxmaxAux]
    rcases List.mem_cons.mp hq with rfl | hq1
    · split
      · rename_i hlt
        exact le_trans hlt.le (ih p p (List.mem_cons_self _ _))
      · exact ih q q (List.mem_cons_self _ _)
    · rcases List.mem_cons.mp hq1 with rfl | hq2
      · split
        · exact ih q q (List.mem_cons_self _ _)
        · rename_i hnlt
          exact le_trans (not_lt.mp hnlt) (ih best best (List.mem_cons_self _ _))
      · split
        · exact ih p q (List.mem_cons_of_mem _ hq2)
        · exact ih best q (List.mem_cons_of_mem _ hq2)

lemma idxmaxAux_eq_of_le {κ : Type} (best : κ × ℚ) (l : List (κ × ℚ))
    (h : (idxmaxAux best l).2 ≤ best.2) : idxmaxAux best l = best := by
  induction l generalizing best with
  | nil => rfl
  | cons p rest ih =>
    by_cases hlt : best.2 < p.2
    · rw [idxmaxAux, if_pos hlt] at h
      have hub : p.2 ≤ (idxmaxAux p rest).2 := idxmaxAux_le p rest p (List.mem_cons_self _ _)
      exact absurd (lt_of_lt_of_le hlt (le_trans hub h)) (lt_irrefl _)
    · rw [idxmaxAux, if_neg hlt] at h ⊢
      exact ih best h

lemma idxmaxAux_first {κ : Type} [LinearOrder κ] :
    ∀ (l : List (κ × ℚ)) (best : κ × ℚ),
      (best :: l).Pairwise (fun p q => p.1 < q.1) →
      ∀ q ∈ best :: l, q.2 = (idxmaxAux best l).2 → (idxmaxAux best l).1 ≤ q.1 := by
  intro l
  induction l with
  | nil =>
    intro best _ q hq _
    rcases List.mem_cons.mp hq with rfl | h
    · exact le_rfl
    · cases h
  | cons p rest ih =>
    intro best hpw q hq hv
    have hbp : best.1 < p.1 := (List.pairwise_cons.mp hpw).1 p (List.mem_cons_self _ _)
    by_cases hlt : best.2 < p.2
    · rw [idxmaxAux, if_pos hlt] at hv ⊢
      rcases List.mem_cons.mp hq with rfl | hq1
      · exfalso
        have hub : p.2 ≤ (idxmaxAux p rest).2 :=
          idxmaxAux_le p rest p (List.mem_cons_self _ _)
        rw [← hv] at hub
        exact absurd (lt_of_lt_of_le hlt hub) (lt_irrefl _)
      · exact ih p hpw.of_cons q hq1 hv
    · rw [idxmaxAux, if_neg hlt] at hv ⊢
      have hpw' : (best :: rest).Pairwise (fun p q => p.1 < q.1) :=
        hpw.sublist ((List.sublist_cons_self p rest).cons₂ best)
      rcases List.mem_cons.mp hq with rfl | hq1
      · exact ih q hpw' q (List.mem_cons_self _ _) hv
      · rcases List.mem_cons.mp hq1 with rfl | hq2
        · have hple : q.2 ≤ best.2 := not_lt.mp hlt
          have hres : idxmaxAux best rest = best := by
            apply idxmaxAux_eq_of_le
            rw [← hv]
            exact hple
          rw [hres]
          exact hbp.le
        · exact ih best hpw' q (List.mem_cons_of_mem _ hq2) hv

lemma topBy_spec {key : Record → String} {view : List Record} (h : view ≠ []) :
    ∃ v : ℚ, (topBy key view, v) ∈ groupSum key view ∧
      (∀ q ∈ groupSum key view, q.2 ≤ v) ∧
      (∀ q ∈ groupSum key view, q.2 = v → topBy key view ≤ q.1) := by
  have hne : groupSum key view ≠ [] := groupSum_ne_nil key h
  obtain ⟨p, rest, hg⟩ := List.exists_cons_of_ne_nil hne
  have hview : view.isEmpty = false := List.isEmpty_eq_false.mpr h
  have hpw : (p :: rest).Pairwise (fun p q : String × ℚ => p.1 < q.1) :=
    hg ▸ groupSum_fst_pairwise_lt key view
  have htop : topBy key view = (idxmaxAux p rest).1 := by
    unfold topBy
    rw [hview, hg]
    rfl
  refine ⟨(idxmaxAux p rest).2, ?_, ?_, ?_⟩
  · rw [htop, hg]
    exact idxmaxAux_mem p rest
  · rw [hg]
    exact fun q hq => idxmaxAux_le p rest q hq
  · rw [htop, hg]
    exact fun q hq hv => idxmaxAux_first rest p hpw q hq hv

end SalesPulse

namespace SalesPulse

/-- C5: The time trend groups sales sums by the year-month of
`order_date`: the month keys are strictly increasing (chronological
order, hence also exactly one point per month), a month key appears iff
some row of the view falls in that month (no zero point is synthesized),
and each point's value is the sum of sales of the view's rows in that
month. -/
theorem trend_monthly (view : List Record) :
    (trend view).Pairwise (fun p q => p.1 < q.1) ∧
    (∀ m : Nat ×ₗ Nat,
      (∃ p ∈ trend view, p.1 = m) ↔ ∃ r ∈ view, r.order_date.monthKey = m) ∧
    ∀ p ∈ trend view,
      p.2 = totalSales (view.filter (fun r => decide (r.order_date.monthKey = p.1))) := by
  unfold trend
  refine ⟨groupSum_fst_pairwise_lt _ _, ?_, ?_⟩
  · intro m
    constructor
    · rintro ⟨p, hp, rfl⟩
      exact (mem_groupSum_iff.mp hp).1
    · intro hr
      exact ⟨(m, totalSales (view.filter (fun r => decide (r.order_date.monthKey = m)))),
        mem_groupSum_iff.mpr ⟨hr, rfl⟩, rfl⟩
  · intro p hp
    exact (mem_groupSum_iff.mp hp).2

/-- C6: On a nonempty view, the top-category metric is the category with
the maximal grouped sales sum and the top-city metric is the city with
the maximal grouped sales sum; when several keys attain the maximum the
result is the smallest such key in the ascending key order (the first
maximum `idxmax` encounters in group-key sort order). -/
theorem top_metrics_argmax (view : List Record) (h : view ≠ []) :
    (∃ v : ℚ, (topCategory view, v) ∈ groupSum Record.category view ∧
      (∀ q ∈ groupSum Record.category view, q.2 ≤ v) ∧
      (∀ q ∈ groupSum Record.category view, q.2 = v → topCategory view ≤ q.1)) ∧
    (∃ v : ℚ, (topCity view, v) ∈ groupSum Record.city view ∧
      (∀ q ∈ groupSum Record.city view, q.2 ≤ v) ∧
      (∀ q ∈ groupSum Record.city view, q.2 = v → topCity view ≤ q.1)) :=
  ⟨@topBy_spec Record.category view h, @topBy_spec Record.city view h⟩

/-- Witness for C6 on a concrete two-row view. -/
theorem top_metrics_argmax_witness :
    ([sampleRecord, sampleRecord2] : List Record) ≠ [] ∧
    ((∃ v : ℚ,
        (topCategory [sampleRecord, sampleRecord2], v)
            ∈ groupSum Record.category [sampleRecord, sampleRecord2] ∧
        (∀ q ∈ groupSum Record.category [sampleRecord, sampleRecord2], q.2 ≤ v) ∧
        (∀ q ∈ groupSum Record.category [sampleRecord, sampleRecord2],
          q.2 = v → topCategory [sampleRecord, sampleRecord2] ≤ q.1)) ∧
      (∃ v : ℚ,
        (topCity [sampleRecord, sampleRecord2], v)
            ∈ groupSum Record.city [sampleRecord, sampleRecord2] ∧
        (∀ q ∈ groupSum Record.city [sampleRecord, sampleRecord2], q.2 ≤ v) ∧
        (∀ q ∈ groupSum Record.city [sampleRecord, sampleRecord2],
          q.2 = v → topCity [sampleRecord, sampleRecord2] ≤ q.1))) :=
  ⟨List.cons_ne_nil _ _,
    top_metrics_argmax [sampleRecord, sampleRecord2] (List.cons_ne_nil _ _)⟩

/-- C10: On a nonempty view the top-category metric is a category value
of some row of the view and the top-city metric is a city value of some
row of the view (so neither is the sentinel "-" unless "-" occurs in
the data). -/
theorem top_metrics_occur_in_view (view : List Record) (h : view ≠ []) :
    (∃ r ∈ view, r.category = topCategory view) ∧
    ∃ r ∈ view, r.city = topCity view := by
  obtain ⟨v, hmem, -, -⟩ := @topBy_spec Record.category view h
  obtain ⟨⟨r, hr, hkey⟩, -⟩ := mem_groupSum_iff.mp hmem
  obtain ⟨v2, hmem2, -, -⟩ := @topBy_spec Record.city view h
  obtain ⟨⟨r2, hr2, hkey2⟩, -⟩ := mem_groupSum_iff.mp hmem2
  exact ⟨⟨r, hr, hkey⟩, ⟨r2, hr2, hkey2⟩⟩

/-- Witness for C10 on a concrete one-row view. -/
theorem top_metrics_occur_in_view_witness :
    ([sampleRecord] : List Record) ≠ [] ∧
    ((∃ r ∈ ([sampleRecord] : List Record), r.category = topCategory [sampleRecord]) ∧
      ∃ r ∈ ([sampleRecord] : List Record), r.city = topCity [sampleRecord]) :=
  ⟨List.cons_ne_nil _ _, top_metrics_occur_in_view [sampleRecord] (List.cons_ne_nil _ _)⟩

/-- C9: One filter-and-aggregate pass leaves the loaded table unchanged:
the state component returned by the pass is the input state (line 111
filters a copy, and no later step mutates `df`), while the metrics are
computed from the filtered copy. -/
theorem table_unchanged_by_pass (st : AppState) (s : FilterSpec) :
    (interactionPass st s).1 = st ∧
    (interactionPass st s).2 = computeMetrics (filterTable st.df s) :=
  ⟨rfl, rfl⟩

end SalesPulse

namespace SalesPulse

lemma sum_map_ite_key {κ : Type} [LinearOrder κ] (x : ℚ) :
    ∀ (ks : List κ) (k : κ), ks.Nodup → k ∈ ks →
      (ks.map (fun a => if k = a then x else 0)).sum = x := by
  intro ks
  induction ks with
  | nil =>
    intro k _ hk
    cases hk
  | cons a l ih =>
    intro k hnd hk
    rw [List.map_cons, List.sum_cons]
    rcases List.mem_cons.mp hk with rfl | hk1
    · rw [if_pos rfl]
      have hz : (l.map (fun b => if k = b then x else 0)).sum = 0 := by
        apply List.sum_eq_zero
        intro y hy
        obtain ⟨b, hb, rfl⟩ := List.mem_map.mp hy
        rw [if_neg]
        intro heq
        subst heq
        exact (List.nodup_cons.mp hnd).1 hb
      rw [hz, add_zero]
    · have hka : k ≠ a := by
        intro heq
        exact (List.nodup_cons.mp hnd).1 (heq ▸ hk1)
      rw [if_neg hka, zero_add]
      exact ih k (List.nodup_cons.mp hnd).2 hk1

lemma totalSales_partition {κ : Type} [LinearOrder κ] (key : Record → κ) :
    ∀ (l : List Record) (ks : List κ), ks.Nodup → (∀ r ∈ l, key r ∈ ks) →
      (ks.map (fun k => totalSales (l.filter (fun r => decide (key r = k))))).sum
        = totalSales l := by
  intro l
  induction l with
  | nil =>
    intro ks _ _
    refine List.sum_eq_zero ?_
    intro y hy
    obtain ⟨k, -, rfl⟩ := List.mem_map.mp hy
    rfl
  | cons r l ih =>
    intro ks hnd hcov
    have hstep : ∀ k : κ,
        totalSales ((r :: l).filter (fun x => decide (key x = k)))
          = (if key r = k then r.sales else 0)
            + totalSales (l.filter (fun x => decide (key x = k))) := by
      intro k
      by_cases h : key r = k
      · simp [List.filter_cons, h, totalSales]
      · simp [List.filter_cons, h]
    have hmap :
        ks.map (fun k => totalSales ((r :: l).filter (fun x => decide (key x = k))))
          = ks.map (fun k =>
              (if key r = k then r.sales else 0)
                + totalSales (l.filter (fun x => decide (key x = k)))) :=
      List.map_congr_left (fun k _ => hstep k)
    rw [hmap, List.sum_map_add,
      sum_map_ite_key r.sales ks (key r) hnd (hcov r (List.mem_cons_self _ _)),
      ih ks hnd (fun x hx => hcov x (List.mem_cons_of_mem _ hx))]
    simp [totalSales]

/-- C7: The per-category sales sums produced by the category aggregation
add up to the total-sales summary of the whole view: the distinct
categories partition the view's rows. -/
theorem category_partition_sum (view : List Record) :
    ((cat_sales view).map Prod.snd).sum = totalSales view := by
  unfold cat_sales groupSum
  rw [List.map_map]
  simp only [Function.comp_def]
  exact totalSales_partition Record.category view (groupKeys Record.category view)
    (groupKeys_nodup Record.category view)
    (fun r hr => mem_groupKeys.mpr ⟨r, hr, rfl⟩)

end SalesPulse
